import Mathlib

/-!
# Verification of the `AsyncBaseCache` abstraction layer (vruden/node-cache)

A shallow embedding of `src/async-base-cache.ts` and the JavaScript library
functions it relies on, together with proofs settling the frozen claims about
the natural-language specification of the repository.

Modelling conventions:

* JavaScript dynamic values are modelled by the inductive `JsVal`
  (null / boolean / integer number / string / array / object).  Floating-point
  numbers are out of scope: the numeric case carries an `Int`.
* JavaScript plain objects used as dictionaries (`keyMap`, `results`, `data`,
  the backing store of a map backend) are modelled as creation-ordered
  association lists `JsObj` with the JS property-assignment semantics:
  assigning to an existing property updates it in place, assigning to a fresh
  property appends it.  Enumeration (`Object.keys` / `_.forEach` / `_.values`
  over objects) follows the ECMAScript own-property order, which hoists
  array-index-like keys ahead of the others (`jsEntries`).
* `JSON.stringify` / `JSON.parse` are modelled by `jsonStringify` / `jsonParse`
  over `JsVal`.  Deviations from the JS built-ins, none of which is reachable
  from the cache code on the values it writes: control characters inside
  strings are emitted raw rather than `\u`-escaped (the parser accepts them
  raw, so the composite behaviour agrees), `\uXXXX` escapes are rejected by
  the parser, number syntax is integer-only, and insignificant whitespace is
  not skipped.
* `async` functions whose awaits are all in sequential tail position are
  modelled in direct style.  The one place where scheduling is observable —
  `setValues` / `addValues` pass an `async` callback to `_.forEach`, which
  does not await it — is modelled by an explicit microtask scheduler
  (`writeValuesRun`) parameterised by the backend's resolution latency.
-/

/-- A JavaScript value, restricted to the JSON-expressible shapes the cache
layer manipulates (numbers are modelled as integers). -/
inductive JsVal where
  | null : JsVal
  | bool (b : Bool) : JsVal
  | num (n : Int) : JsVal
  | str (s : String) : JsVal
  | arr (elems : List JsVal) : JsVal
  | obj (fields : List (String × JsVal)) : JsVal

mutual

/-- Boolean structural equality on `JsVal` (the automatic derivation does not
handle the nested induction). -/
def JsVal.beq : JsVal → JsVal → Bool
  | .null, .null => true
  | .bool a, .bool b => a == b
  | .num a, .num b => a == b
  | .str a, .str b => a == b
  | .arr a, .arr b => JsVal.beqList a b
  | .obj a, .obj b => JsVal.beqFields a b
  | _, _ => false

/-- Elementwise `JsVal.beq` on lists. -/
def JsVal.beqList : List JsVal → List JsVal → Bool
  | [], [] => true
  | x :: xs, y :: ys => JsVal.beq x y && JsVal.beqList xs ys
  | _, _ => false

/-- Elementwise `JsVal.beq` on field lists. -/
def JsVal.beqFields : List (String × JsVal) → List (String × JsVal) → Bool
  | [], [] => true
  | (k, x) :: xs, (k', y) :: ys => k == k' && JsVal.beq x y && JsVal.beqFields xs ys
  | _, _ => false

end

mutual

theorem JsVal.beq_iff : ∀ (a b : JsVal), JsVal.beq a b = true ↔ a = b
  | .null, b => by cases b <;> simp [JsVal.beq]
  | .bool a, b => by cases b <;> simp [JsVal.beq]
  | .num a, b => by cases b <;> simp [JsVal.beq]
  | .str a, b => by cases b <;> simp [JsVal.beq]
  | .arr a, b => by
    cases b with
    | arr c => simpa [JsVal.beq] using JsVal.beqList_iff a c
    | null => simp [JsVal.beq]
    | bool x => simp [JsVal.beq]
    | num x => simp [JsVal.beq]
    | str x => simp [JsVal.beq]
    | obj x => simp [JsVal.beq]
  | .obj a, b => by
    cases b with
    | obj c => simpa [JsVal.beq] using JsVal.beqFields_iff a c
    | null => simp [JsVal.beq]
    | bool x => simp [JsVal.beq]
    | num x => simp [JsVal.beq]
    | str x => simp [JsVal.beq]
    | arr x => simp [JsVal.beq]

theorem JsVal.beqList_iff : ∀ (a b : List JsVal), JsVal.beqList a b = true ↔ a = b
  | [], b => by cases b <;> simp [JsVal.beqList]
  | x :: xs, b => by
    cases b with
    | nil => simp [JsVal.beqList]
    | cons y ys =>
      simp only [JsVal.beqList, Bool.and_eq_true, List.cons.injEq]
      rw [JsVal.beq_iff, JsVal.beqList_iff]

theorem JsVal.beqFields_iff :
    ∀ (a b : List (String × JsVal)), JsVal.beqFields a b = true ↔ a = b
  | [], b => by cases b <;> simp [JsVal.beqFields]
  | (k, x) :: xs, b => by
    cases b with
    | nil => simp [JsVal.beqFields]
    | cons p ys =>
      obtain ⟨k', y⟩ := p
      simp only [JsVal.beqFields, Bool.and_eq_true, List.cons.injEq, Prod.mk.injEq,
        beq_iff_eq]
      rw [JsVal.beq_iff, JsVal.beqFields_iff]

end

instance : DecidableEq JsVal := fun a b =>
  decidable_of_iff (JsVal.beq a b = true) (JsVal.beq_iff a b)

/-- A JavaScript plain object used as a string-keyed dictionary: an
association list in property-creation order (enumeration order, which hoists
array-index-like keys, is derived from it by `jsEntries` below). -/
abbrev JsObj (α : Type) : Type := List (String × α)

/-- JS property assignment `o[k] = v`: update in place if `k` is already a
property, otherwise append. -/
def jsSet {α : Type} : JsObj α → String → α → JsObj α
  | [], k, v => [(k, v)]
  | (k', v') :: rest, k, v =>
    if k' = k then (k', v) :: rest else (k', v') :: jsSet rest k v

/-- JS property read `o[k]`: `none` models `undefined`. -/
def jsGet {α : Type} : JsObj α → String → Option α
  | [], _ => none
  | (k', v') :: rest, k => if k' = k then some v' else jsGet rest k

/-- JS `delete o[k]`. -/
def jsRemove {α : Type} (m : JsObj α) (k : String) : JsObj α :=
  m.filter (fun p => p.1 ≠ k)

theorem jsGet_jsSet {α : Type} (m : JsObj α) (a b : String) (v : α) :
    jsGet (jsSet m a v) b = if b = a then some v else jsGet m b := by
  induction m with
  | nil =>
    simp only [jsSet, jsGet]
    split_ifs <;> simp_all
  | cons p rest ih =>
    obtain ⟨k', v'⟩ := p
    by_cases hk : k' = a
    · subst hk
      simp only [jsSet, if_pos rfl, jsGet]
      by_cases hb : k' = b
      · subst hb; simp
      · rw [if_neg hb, if_neg (fun e => hb (Eq.symm e)), if_neg hb]
    · simp only [jsSet, if_neg hk, jsGet, ih]
      by_cases hb : k' = b
      · subst hb
        rw [if_pos rfl, if_neg hk, if_pos rfl]
      · rw [if_neg hb, if_neg hb]

theorem jsSet_keys {α : Type} (m : JsObj α) (k : String) (v : α) :
    (jsSet m k v).map Prod.fst =
      if k ∈ m.map Prod.fst then m.map Prod.fst else m.map Prod.fst ++ [k] := by
  induction m with
  | nil => simp [jsSet]
  | cons p rest ih =>
    obtain ⟨k', v'⟩ := p
    by_cases hk : k' = k
    · subst hk; simp [jsSet]
    · have hkk : ¬ k = k' := fun e => hk (Eq.symm e)
      simp only [jsSet, if_neg hk, List.map_cons, ih, List.mem_cons]
      by_cases hmem : k ∈ rest.map Prod.fst
      · simp [hmem]
      · simp [hmem, hkk]

theorem jsSet_nodup_keys {α : Type} (m : JsObj α) (k : String) (v : α)
    (h : (m.map Prod.fst).Nodup) : ((jsSet m k v).map Prod.fst).Nodup := by
  rw [jsSet_keys]
  by_cases hmem : k ∈ m.map Prod.fst
  · simpa [hmem] using h
  · rw [if_neg hmem]
    refine List.Nodup.append h (List.nodup_singleton k) ?_
    intro a ha hb
    rw [List.mem_singleton] at hb
    subst hb
    exact hmem ha

/-- Assigning a fresh property appends it. -/
theorem jsSet_of_not_mem {α : Type} (m : JsObj α) (k : String) (v : α)
    (h : k ∉ m.map Prod.fst) : jsSet m k v = m ++ [(k, v)] := by
  induction m with
  | nil => simp [jsSet]
  | cons p rest ih =>
    obtain ⟨k', v'⟩ := p
    have h1 : ¬ (k' = k) := fun e => h (by simp [e])
    have h2 : k ∉ rest.map Prod.fst := fun hm => h (by simp [hm])
    simp [jsSet, h1, ih h2]

/-- Re-assigning the property that was just appended overwrites it in place. -/
theorem jsSet_append_last {α : Type} (m : JsObj α) (k : String) (x v : α)
    (h : k ∉ m.map Prod.fst) : jsSet (m ++ [(k, x)]) k v = m ++ [(k, v)] := by
  induction m with
  | nil => simp [jsSet]
  | cons p rest ih =>
    obtain ⟨k', v'⟩ := p
    have h1 : ¬ (k' = k) := fun e => h (by simp [e])
    have h2 : k ∉ rest.map Prod.fst := fun hm => h (by simp [hm])
    simp [jsSet, h1, ih h2]

/-! ## Decimal rendering and parsing of integers -/

/-- The decimal digit character for `d < 10`. -/
def digitChar (d : Nat) : Char := Char.ofNat (48 + d)

/-- Little-endian decimal digit characters of `n`; the first argument is
recursion fuel, in use always at least `n`, so that the definition is
structural and computes by reduction. -/
def digitsRevAux : Nat → Nat → List Char
  | 0, _ => []
  | f+1, n => if n = 0 then [] else digitChar (n % 10) :: digitsRevAux f (n / 10)

/-- Decimal digit characters of `n`, most significant first. -/
def natChars (n : Nat) : List Char :=
  if n = 0 then ['0'] else (digitsRevAux n n).reverse

/-- Decimal rendering of an integer, as produced by JS `String(n)` and
`JSON.stringify(n)` for integral numbers. -/
def intChars (n : Int) : List Char :=
  if n < 0 then '-' :: natChars n.natAbs else natChars n.toNat

/-- ASCII decimal digit test. -/
def isDigitChar (c : Char) : Bool := 48 ≤ c.toNat && c.toNat ≤ 57

/-- Numeric value of a string of decimal digit characters. -/
def digitsToNat (ds : List Char) : Nat :=
  ds.foldl (fun a c => 10 * a + (c.toNat - 48)) 0

theorem digitChar_toNat (d : Nat) (h : d < 10) : (digitChar d).toNat = 48 + d := by
  interval_cases d <;> decide

theorem isDigitChar_digitChar (d : Nat) (h : d < 10) : isDigitChar (digitChar d) = true := by
  interval_cases d <;> decide

theorem digitsToNat_append_last (xs : List Char) (c : Char) :
    digitsToNat (xs ++ [c]) = 10 * digitsToNat xs + (c.toNat - 48) := by
  simp [digitsToNat, List.foldl_append]

theorem digitsRevAux_val (f : Nat) :
    ∀ n, n ≤ f → digitsToNat (digitsRevAux f n).reverse = n := by
  induction f with
  | zero =>
    intro n hn
    interval_cases n
    simp [digitsRevAux, digitsToNat]
  | succ f ih =>
    intro n hn
    by_cases h0 : n = 0
    · simp [digitsRevAux, h0, digitsToNat]
    · rw [digitsRevAux, if_neg h0, List.reverse_cons, digitsToNat_append_last,
        ih (n / 10) (by omega), digitChar_toNat _ (Nat.mod_lt _ (by norm_num))]
      omega

theorem digitsToNat_natChars (n : Nat) : digitsToNat (natChars n) = n := by
  by_cases h : n = 0
  · simp [natChars, h, digitsToNat]
  · simp [natChars, h, digitsRevAux_val n n le_rfl]

theorem digitsRevAux_digits (f : Nat) :
    ∀ n c, c ∈ digitsRevAux f n → isDigitChar c = true := by
  induction f with
  | zero => simp [digitsRevAux]
  | succ f ih =>
    intro n c hc
    by_cases h0 : n = 0
    · simp [digitsRevAux, h0] at hc
    · rw [digitsRevAux, if_neg h0] at hc
      rcases List.mem_cons.mp hc with h | h
      · subst h; exact isDigitChar_digitChar _ (Nat.mod_lt _ (by norm_num))
      · exact ih (n / 10) c h

theorem natChars_digits (n : Nat) : ∀ c ∈ natChars n, isDigitChar c = true := by
  by_cases h : n = 0
  · simp [natChars, h]; decide
  · simp only [natChars, if_neg h]
    intro c hc
    exact digitsRevAux_digits n n c (List.mem_reverse.mp hc)

theorem natChars_ne_nil (n : Nat) : natChars n ≠ [] := by
  by_cases h : n = 0
  · simp [natChars, h]
  · simp only [natChars, if_neg h]
    obtain ⟨m, rfl⟩ : ∃ m, n = m + 1 := ⟨n - 1, by omega⟩
    rw [digitsRevAux, if_neg h]
    simp

/-- A digit of a digit string differs from any non-digit character. -/
theorem digit_ne (c d : Char) (h : isDigitChar c = true) (hd : isDigitChar d = false) :
    c ≠ d := by
  intro e; subst e; rw [h] at hd; cases hd

/-- `rest` does not begin with a decimal digit, so a greedy digit scan stops
exactly at its head. -/
def noDigitHead (rest : List Char) : Prop :=
  ∀ c, rest.head? = some c → isDigitChar c = false

theorem takeWhile_digits_append (ds rest : List Char)
    (hds : ∀ c ∈ ds, isDigitChar c = true) (hrest : noDigitHead rest) :
    (ds ++ rest).takeWhile isDigitChar = ds := by
  induction ds with
  | nil =>
    cases rest with
    | nil => rfl
    | cons c t =>
      have := hrest c rfl
      simp [List.takeWhile, this]
  | cons c ds ih =>
    have hc := hds c (List.mem_cons_self c ds)
    simp [List.takeWhile_cons, hc, ih (fun x hx => hds x (List.mem_cons_of_mem c hx))]

theorem dropWhile_digits_append (ds rest : List Char)
    (hds : ∀ c ∈ ds, isDigitChar c = true) (hrest : noDigitHead rest) :
    (ds ++ rest).dropWhile isDigitChar = rest := by
  induction ds with
  | nil =>
    cases rest with
    | nil => rfl
    | cons c t =>
      have := hrest c rfl
      simp [List.dropWhile, this]
  | cons c ds ih =>
    have hc := hds c (List.mem_cons_self c ds)
    simp [List.dropWhile_cons, hc, ih (fun x hx => hds x (List.mem_cons_of_mem c hx))]

theorem span_digits_append (ds rest : List Char)
    (hds : ∀ c ∈ ds, isDigitChar c = true) (hrest : noDigitHead rest) :
    (ds ++ rest).span isDigitChar = (ds, rest) := by
  rw [List.span_eq_take_drop, takeWhile_digits_append ds rest hds hrest,
    dropWhile_digits_append ds rest hds hrest]

/-! ## JSON.stringify -/

/-- Escape of one character inside a JSON string literal (control characters
are emitted raw; see the header note). -/
def escChar (c : Char) : List Char :=
  if c = '"' then ['\\', '"']
  else if c = '\\' then ['\\', '\\']
  else [c]

/-- Escape of a string body. -/
def escape (cs : List Char) : List Char := (cs.map escChar).flatten

mutual

/-- The characters of `JSON.stringify v`. -/
def sChars : JsVal → List Char
  | .null => 'n' :: ['u', 'l', 'l']
  | .bool true => 't' :: ['r', 'u', 'e']
  | .bool false => 'f' :: ['a', 'l', 's', 'e']
  | .num n => intChars n
  | .str s => '"' :: (escape s.data ++ ['"'])
  | .arr [] => ['[', ']']
  | .arr (x :: xs) => '[' :: (elemsChars x xs ++ [']'])
  | .obj [] => ['\x7b', '\x7d']
  | .obj (p :: ps) => '\x7b' :: (fieldsChars p ps ++ ['\x7d'])
termination_by v => sizeOf v
decreasing_by all_goals (simp_wf <;> omega)

/-- The characters of a nonempty comma-separated array body. -/
def elemsChars : JsVal → List JsVal → List Char
  | x, [] => sChars x
  | x, y :: ys => sChars x ++ ',' :: elemsChars y ys
termination_by x xs => 1 + sizeOf x + sizeOf xs
decreasing_by all_goals (simp_wf <;> omega)

/-- The characters of a nonempty comma-separated object body. -/
def fieldsChars : (String × JsVal) → List (String × JsVal) → List Char
  | (k, v), [] => '"' :: (escape k.data ++ '"' :: ':' :: sChars v)
  | (k, v), p :: ps =>
    '"' :: (escape k.data ++ '"' :: ':' :: (sChars v ++ ',' :: fieldsChars p ps))
termination_by p ps => 1 + sizeOf p + sizeOf ps
decreasing_by all_goals (simp_wf <;> omega)

end

/-- The model of `JSON.stringify`. -/
def jsonStringify (v : JsVal) : String := String.mk (sChars v)

theorem natChars_head_digit (n : Nat) :
    ∃ c t, natChars n = c :: t ∧ isDigitChar c = true := by
  cases hn : natChars n with
  | nil => exact absurd hn (natChars_ne_nil n)
  | cons c t =>
    exact ⟨c, t, rfl, natChars_digits n c (hn ▸ List.mem_cons_self c t)⟩

/-- `JSON.stringify` output is nonempty and starts with a character that is
not one of the closing / separating tokens. -/
theorem sChars_head_ok (v : JsVal) :
    ∃ c t, sChars v = c :: t ∧ c ≠ ']' ∧ c ≠ ',' ∧ c ≠ '\x7d' := by
  cases v with
  | null =>
    exact ⟨'n', ['u', 'l', 'l'], by simp [sChars], by decide, by decide, by decide⟩
  | bool b => cases b with
    | true =>
      exact ⟨'t', ['r', 'u', 'e'], by simp [sChars], by decide, by decide, by decide⟩
    | false =>
      exact ⟨'f', ['a', 'l', 's', 'e'], by simp [sChars], by decide, by decide, by decide⟩
  | num n =>
    by_cases h : n < 0
    · exact ⟨'-', natChars n.natAbs, by simp [sChars, intChars, h],
        by decide, by decide, by decide⟩
    · obtain ⟨c, t, hct, hc⟩ := natChars_head_digit n.toNat
      refine ⟨c, t, by simp [sChars, intChars, h, hct], ?_, ?_, ?_⟩ <;>
        exact digit_ne c _ hc (by decide)
  | str s =>
    exact ⟨'"', escape s.data ++ ['"'], by simp [sChars], by decide, by decide, by decide⟩
  | arr l => cases l with
    | nil => exact ⟨'[', [']'], by simp [sChars], by decide, by decide, by decide⟩
    | cons x xs =>
      exact ⟨'[', elemsChars x xs ++ [']'], by simp [sChars],
        by decide, by decide, by decide⟩
  | obj l => cases l with
    | nil => exact ⟨'\x7b', ['\x7d'], by simp [sChars], by decide, by decide, by decide⟩
    | cons p ps =>
      exact ⟨'\x7b', fieldsChars p ps ++ ['\x7d'], by simp [sChars],
        by decide, by decide, by decide⟩

/-! ## JSON.parse -/

/-- Unescape of a backslash escape inside a JSON string literal
(`\uXXXX` is not modelled; see the header note). -/
def unescChar (e : Char) : Option Char :=
  if e = '"' then some '"'
  else if e = '\\' then some '\\'
  else if e = '/' then some '/'
  else if e = 'n' then some '\n'
  else if e = 't' then some '\t'
  else if e = 'r' then some '\r'
  else if e = 'b' then some (Char.ofNat 8)
  else if e = 'f' then some (Char.ofNat 12)
  else none

/-- Parses the body of a JSON string literal up to the closing quote,
returning the unescaped characters and the input after the quote. -/
def parseStrBody : List Char → Option (List Char × List Char)
  | [] => none
  | c :: r =>
    if c = '"' then some ([], r)
    else if c = '\\' then
      match r with
      | [] => none
      | e :: r2 =>
        match unescChar e with
        | some u =>
          match parseStrBody r2 with
          | some (cs, r3) => some (u :: cs, r3)
          | none => none
        | none => none
    else
      match parseStrBody r with
      | some (cs, r3) => some (c :: cs, r3)
      | none => none

mutual

/-- Fueled JSON value parser over characters: the grammar accepted by
`JSON.parse` restricted as described in the header note.  The fuel bounds
the recursion depth; `jsonParse` supplies one more than the input length,
which `parseVal_sChars` shows is always sufficient on stringified values. -/
def parseVal : Nat → List Char → Option (JsVal × List Char)
  | 0, _ => none
  | _+1, [] => none
  | f+1, c :: r =>
    if c = 'n' then
      if r.take 3 = ['u', 'l', 'l'] then some (.null, r.drop 3) else none
    else if c = 't' then
      if r.take 3 = ['r', 'u', 'e'] then some (.bool true, r.drop 3) else none
    else if c = 'f' then
      if r.take 4 = ['a', 'l', 's', 'e'] then some (.bool false, r.drop 4) else none
    else if c = '"' then
      match parseStrBody r with
      | some (cs, r2) => some (.str (String.mk cs), r2)
      | none => none
    else if c = '[' then
      if r.head? = some ']' then some (.arr [], r.tail)
      else
        match parseElems f r with
        | some (l, r2) => some (.arr l, r2)
        | none => none
    else if c = '\x7b' then
      if r.head? = some '\x7d' then some (.obj [], r.tail)
      else
        match parseFields f r with
        | some (l, r2) => some (.obj l, r2)
        | none => none
    else if c = '-' then
      match r.span isDigitChar with
      | (ds, r2) => if ds = [] then none else some (.num (-(digitsToNat ds : Int)), r2)
    else if isDigitChar c then
      match (c :: r).span isDigitChar with
      | (ds, r2) => some (.num ((digitsToNat ds : Int)), r2)
    else none

/-- Parses a nonempty comma-separated element list followed by `]`. -/
def parseElems : Nat → List Char → Option (List JsVal × List Char)
  | 0, _ => none
  | f+1, s =>
    match parseVal f s with
    | none => none
    | some (v, r) =>
      match r with
      | ',' :: r2 =>
        match parseElems f r2 with
        | some (l, r3) => some (v :: l, r3)
        | none => none
      | ']' :: r2 => some ([v], r2)
      | _ => none

/-- Parses a nonempty comma-separated field list followed by the closing
brace. -/
def parseFields : Nat → List Char → Option (List (String × JsVal) × List Char)
  | 0, _ => none
  | f+1, s =>
    match s with
    | '"' :: r =>
      match parseStrBody r with
      | none => none
      | some (kcs, r1) =>
        match r1 with
        | ':' :: r2 =>
          match parseVal f r2 with
          | none => none
          | some (v, r3) =>
            match r3 with
            | ',' :: r4 =>
              match parseFields f r4 with
              | some (l, r5) => some ((String.mk kcs, v) :: l, r5)
              | none => none
            | '\x7d' :: r4 => some ([(String.mk kcs, v)], r4)
            | _ => none
        | _ => none
    | _ => none

end

/-- The model of `JSON.parse`: `none` models a thrown `SyntaxError`. -/
def jsonParse (s : String) : Option JsVal :=
  match parseVal (s.data.length + 1) s.data with
  | some (v, []) => some v
  | _ => none

/-! ## Round-trip: `jsonParse` after `jsonStringify` -/

theorem noDigitHead_nil : noDigitHead [] := fun _ hc => by cases hc

theorem noDigitHead_cons (c : Char) (rest : List Char) (h : isDigitChar c = false) :
    noDigitHead (c :: rest) := by
  intro d hd
  simp only [List.head?_cons, Option.some.injEq] at hd
  subst hd
  exact h

theorem parseStrBody_escape (cs rest : List Char) :
    parseStrBody (escape cs ++ '"' :: rest) = some (cs, rest) := by
  induction cs with
  | nil =>
    rw [show escape [] ++ '"' :: rest = '"' :: rest from by simp [escape]]
    rw [parseStrBody.eq_def]
    simp
  | cons c cs ih =>
    by_cases hq : c = '"'
    · subst hq
      rw [show escape ('"' :: cs) ++ '"' :: rest = '\\' :: '"' :: (escape cs ++ '"' :: rest)
          from by simp [escape, escChar]]
      rw [parseStrBody.eq_def]
      simp [unescChar, ih]
    · by_cases hb : c = '\\'
      · subst hb
        rw [show escape ('\\' :: cs) ++ '"' :: rest = '\\' :: '\\' :: (escape cs ++ '"' :: rest)
            from by simp [escape, escChar]]
        rw [parseStrBody.eq_def]
        simp [unescChar, ih]
      · rw [show escape (c :: cs) ++ '"' :: rest = c :: (escape cs ++ '"' :: rest)
            from by simp [escape, escChar, hq, hb]]
        rw [parseStrBody.eq_def]
        simp only []
        rw [if_neg hq, if_neg hb, ih]

mutual

/-- Fuel sufficient for `parseVal` on the stringification of `v`. -/
def fuelV : JsVal → Nat
  | .null => 1
  | .bool _ => 1
  | .num _ => 1
  | .str _ => 1
  | .arr [] => 1
  | .arr (x :: xs) => 1 + fuelE x xs
  | .obj [] => 1
  | .obj (p :: ps) => 1 + fuelF p ps
termination_by v => sizeOf v
decreasing_by all_goals (simp_wf <;> omega)

/-- Fuel sufficient for `parseElems` on a stringified nonempty element list. -/
def fuelE : JsVal → List JsVal → Nat
  | x, [] => 1 + fuelV x
  | x, y :: ys => 1 + max (fuelV x) (fuelE y ys)
termination_by x xs => 1 + sizeOf x + sizeOf xs
decreasing_by all_goals (simp_wf <;> omega)

/-- Fuel sufficient for `parseFields` on a stringified nonempty field list. -/
def fuelF : (String × JsVal) → List (String × JsVal) → Nat
  | (_, v), [] => 1 + fuelV v
  | (_, v), p :: ps => 1 + max (fuelV v) (fuelF p ps)
termination_by p ps => 1 + sizeOf p + sizeOf ps
decreasing_by all_goals (simp_wf <;> omega)

end

theorem fuelV_pos (v : JsVal) : 1 ≤ fuelV v := by
  cases v with
  | arr l => cases l <;> simp [fuelV]
  | obj l => cases l <;> simp [fuelV]
  | null => simp [fuelV]
  | bool b => simp [fuelV]
  | num n => simp [fuelV]
  | str s => simp [fuelV]

theorem fuelE_pos (x : JsVal) (xs : List JsVal) : 1 ≤ fuelE x xs := by
  cases xs <;> simp [fuelE]

theorem fuelF_pos (p : String × JsVal) (ps : List (String × JsVal)) : 1 ≤ fuelF p ps := by
  obtain ⟨k, v⟩ := p
  cases ps <;> simp [fuelF]

theorem elemsChars_head (x : JsVal) (xs : List JsVal) (c : Char) (t : List Char)
    (h : sChars x = c :: t) : ∃ t2, elemsChars x xs = c :: t2 := by
  cases xs with
  | nil => exact ⟨t, by simp [elemsChars, h]⟩
  | cons y ys => exact ⟨t ++ ',' :: elemsChars y ys, by simp [elemsChars, h]⟩

theorem fieldsChars_head (p : String × JsVal) (ps : List (String × JsVal)) :
    ∃ t, fieldsChars p ps = '"' :: t := by
  obtain ⟨k, v⟩ := p
  cases ps with
  | nil => exact ⟨escape k.data ++ '"' :: ':' :: sChars v, by simp [fieldsChars]⟩
  | cons q qs =>
    exact ⟨escape k.data ++ '"' :: ':' :: (sChars v ++ ',' :: fieldsChars q qs),
      by simp [fieldsChars]⟩

mutual

theorem parseVal_sChars : ∀ (v : JsVal) (f : Nat) (rest : List Char),
    fuelV v ≤ f → noDigitHead rest → parseVal f (sChars v ++ rest) = some (v, rest)
  | .null, f, rest, hf, hrest => by
    obtain ⟨g, rfl⟩ : ∃ g, f = g + 1 := ⟨f - 1, by have := fuelV_pos .null; omega⟩
    rw [show sChars .null ++ rest = 'n' :: 'u' :: 'l' :: 'l' :: rest from by simp [sChars]]
    rw [parseVal.eq_def]
    simp
  | .bool true, f, rest, hf, hrest => by
    obtain ⟨g, rfl⟩ : ∃ g, f = g + 1 := ⟨f - 1, by have := fuelV_pos (.bool true); omega⟩
    rw [show sChars (.bool true) ++ rest = 't' :: 'r' :: 'u' :: 'e' :: rest from by
      simp [sChars]]
    rw [parseVal.eq_def]
    simp
  | .bool false, f, rest, hf, hrest => by
    obtain ⟨g, rfl⟩ : ∃ g, f = g + 1 := ⟨f - 1, by have := fuelV_pos (.bool false); omega⟩
    rw [show sChars (.bool false) ++ rest = 'f' :: 'a' :: 'l' :: 's' :: 'e' :: rest from by
      simp [sChars]]
    rw [parseVal.eq_def]
    simp
  | .num n, f, rest, hf, hrest => by
    obtain ⟨g, rfl⟩ : ∃ g, f = g + 1 := ⟨f - 1, by have := fuelV_pos (.num n); omega⟩
    by_cases hneg : n < 0
    · rw [show sChars (.num n) ++ rest = '-' :: (natChars n.natAbs ++ rest) from by
        simp [sChars, intChars, hneg]]
      rw [parseVal.eq_def]
      simp only []
      rw [if_neg (by decide), if_neg (by decide), if_neg (by decide), if_neg (by decide),
        if_neg (by decide), if_neg (by decide), if_pos (by trivial)]
      rw [span_digits_append (natChars n.natAbs) rest (natChars_digits _) hrest]
      simp only []
      rw [if_neg (natChars_ne_nil n.natAbs)]
      simp only [digitsToNat_natChars, Option.some.injEq, Prod.mk.injEq, JsVal.num.injEq]
      exact ⟨by omega, by trivial⟩
    · obtain ⟨c, t, hct, hcd⟩ := natChars_head_digit n.toNat
      rw [show sChars (.num n) ++ rest = c :: (t ++ rest) from by
        simp [sChars, intChars, hneg, hct]]
      rw [parseVal.eq_def]
      simp only []
      rw [if_neg (digit_ne c 'n' hcd (by decide)), if_neg (digit_ne c 't' hcd (by decide)),
        if_neg (digit_ne c 'f' hcd (by decide)), if_neg (digit_ne c '"' hcd (by decide)),
        if_neg (digit_ne c '[' hcd (by decide)), if_neg (digit_ne c '\x7b' hcd (by decide)),
        if_neg (digit_ne c '-' hcd (by decide)), if_pos hcd]
      rw [show c :: (t ++ rest) = natChars n.toNat ++ rest from by rw [hct]; rfl]
      rw [span_digits_append (natChars n.toNat) rest (natChars_digits _) hrest]
      simp only [digitsToNat_natChars, Option.some.injEq, Prod.mk.injEq, JsVal.num.injEq]
      exact ⟨by omega, by trivial⟩
  | .str s, f, rest, hf, hrest => by
    obtain ⟨g, rfl⟩ : ∃ g, f = g + 1 := ⟨f - 1, by have := fuelV_pos (.str s); omega⟩
    rw [show sChars (.str s) ++ rest = '"' :: (escape s.data ++ '"' :: rest) from by
      simp [sChars]]
    rw [parseVal.eq_def]
    simp only []
    rw [if_neg (by decide), if_neg (by decide), if_neg (by decide), if_pos (by trivial)]
    rw [parseStrBody_escape]
  | .arr [], f, rest, hf, hrest => by
    obtain ⟨g, rfl⟩ : ∃ g, f = g + 1 := ⟨f - 1, by have := fuelV_pos (.arr []); omega⟩
    rw [show sChars (.arr []) ++ rest = '[' :: ']' :: rest from by simp [sChars]]
    rw [parseVal.eq_def]
    simp
  | .arr (x :: xs), f, rest, hf, hrest => by
    obtain ⟨g, rfl⟩ : ∃ g, f = g + 1 := ⟨f - 1, by have := fuelV_pos (.arr (x :: xs)); omega⟩
    obtain ⟨c, t, hct, hc1, hc2, hc3⟩ := sChars_head_ok x
    obtain ⟨t2, ht2⟩ := elemsChars_head x xs c t hct
    have he := parseElems_sChars x xs g rest (by simp only [fuelV] at hf; omega)
    rw [show sChars (.arr (x :: xs)) ++ rest = '[' :: (elemsChars x xs ++ ']' :: rest)
        from by simp [sChars]]
    rw [parseVal.eq_def]
    simp only []
    rw [if_neg (by decide), if_neg (by decide), if_neg (by decide), if_neg (by decide),
      if_pos (by trivial)]
    rw [show (elemsChars x xs ++ ']' :: rest).head? = some c from by rw [ht2]; rfl]
    rw [if_neg (show ¬ (some c = some ']') from fun h => hc1 (Option.some.inj h))]
    rw [he]
  | .obj [], f, rest, hf, hrest => by
    obtain ⟨g, rfl⟩ : ∃ g, f = g + 1 := ⟨f - 1, by have := fuelV_pos (.obj []); omega⟩
    rw [show sChars (.obj []) ++ rest = '\x7b' :: '\x7d' :: rest from by simp [sChars]]
    rw [parseVal.eq_def]
    simp
  | .obj (p :: ps), f, rest, hf, hrest => by
    obtain ⟨g, rfl⟩ : ∃ g, f = g + 1 := ⟨f - 1, by have := fuelV_pos (.obj (p :: ps)); omega⟩
    obtain ⟨t3, ht3⟩ := fieldsChars_head p ps
    have hff := parseFields_sChars p ps g rest (by simp only [fuelV] at hf; omega)
    rw [show sChars (.obj (p :: ps)) ++ rest = '\x7b' :: (fieldsChars p ps ++ '\x7d' :: rest)
        from by simp [sChars]]
    rw [parseVal.eq_def]
    simp only []
    rw [if_neg (by decide), if_neg (by decide), if_neg (by decide), if_neg (by decide),
      if_neg (by decide), if_pos (by trivial)]
    rw [show (fieldsChars p ps ++ '\x7d' :: rest).head? = some '"' from by rw [ht3]; rfl]
    rw [if_neg (by decide)]
    rw [hff]

theorem parseElems_sChars : ∀ (x : JsVal) (xs : List JsVal) (f : Nat) (rest : List Char),
    fuelE x xs ≤ f → parseElems f (elemsChars x xs ++ ']' :: rest) = some (x :: xs, rest)
  | x, [], f, rest, hf => by
    obtain ⟨g, rfl⟩ : ∃ g, f = g + 1 := ⟨f - 1, by have := fuelE_pos x []; omega⟩
    have h1 := parseVal_sChars x g (']' :: rest) (by simp only [fuelE] at hf; omega)
      (noDigitHead_cons _ _ (by decide))
    rw [show elemsChars x [] ++ ']' :: rest = sChars x ++ ']' :: rest from by
      simp [elemsChars]]
    rw [parseElems.eq_def]
    simp only [h1]
  | x, y :: ys, f, rest, hf => by
    obtain ⟨g, rfl⟩ : ∃ g, f = g + 1 := ⟨f - 1, by have := fuelE_pos x (y :: ys); omega⟩
    have h1 := parseVal_sChars x g (',' :: (elemsChars y ys ++ ']' :: rest))
      (by simp only [fuelE] at hf; omega) (noDigitHead_cons _ _ (by decide))
    have h2 := parseElems_sChars y ys g rest (by simp only [fuelE] at hf; omega)
    rw [show elemsChars x (y :: ys) ++ ']' :: rest
        = sChars x ++ ',' :: (elemsChars y ys ++ ']' :: rest) from by
      simp [elemsChars]]
    rw [parseElems.eq_def]
    simp only [h1, h2]

theorem parseFields_sChars :
    ∀ (p : String × JsVal) (ps : List (String × JsVal)) (f : Nat) (rest : List Char),
    fuelF p ps ≤ f → parseFields f (fieldsChars p ps ++ '\x7d' :: rest) = some (p :: ps, rest)
  | (k, v), [], f, rest, hf => by
    obtain ⟨g, rfl⟩ : ∃ g, f = g + 1 := ⟨f - 1, by have := fuelF_pos (k, v) []; omega⟩
    have h1 := parseStrBody_escape k.data (':' :: (sChars v ++ '\x7d' :: rest))
    have h2 := parseVal_sChars v g ('\x7d' :: rest) (by simp only [fuelF] at hf; omega)
      (noDigitHead_cons _ _ (by decide))
    rw [show fieldsChars (k, v) [] ++ '\x7d' :: rest
        = '"' :: (escape k.data ++ '"' :: (':' :: (sChars v ++ '\x7d' :: rest))) from by
      simp [fieldsChars]]
    rw [parseFields.eq_def]
    simp only [h1, h2]
  | (k, v), q :: qs, f, rest, hf => by
    obtain ⟨g, rfl⟩ : ∃ g, f = g + 1 := ⟨f - 1, by have := fuelF_pos (k, v) (q :: qs); omega⟩
    have h1 := parseStrBody_escape k.data
      (':' :: (sChars v ++ ',' :: (fieldsChars q qs ++ '\x7d' :: rest)))
    have h2 := parseVal_sChars v g (',' :: (fieldsChars q qs ++ '\x7d' :: rest))
      (by simp only [fuelF] at hf; omega) (noDigitHead_cons _ _ (by decide))
    have h3 := parseFields_sChars q qs g rest (by simp only [fuelF] at hf; omega)
    rw [show fieldsChars (k, v) (q :: qs) ++ '\x7d' :: rest
        = '"' :: (escape k.data ++ '"' ::
            (':' :: (sChars v ++ ',' :: (fieldsChars q qs ++ '\x7d' :: rest)))) from by
      simp [fieldsChars]]
    rw [parseFields.eq_def]
    simp only [h1, h2, h3]

end

mutual

theorem fuelV_le_len : ∀ (v : JsVal), fuelV v ≤ (sChars v).length
  | .null => by simp [fuelV, sChars]
  | .bool true => by simp [fuelV, sChars]
  | .bool false => by simp [fuelV, sChars]
  | .num n => by
    have := natChars_ne_nil n.toNat
    have := natChars_ne_nil n.natAbs
    by_cases h : n < 0 <;>
      · simp only [fuelV, sChars, intChars, if_pos, if_neg, h, ite_true, ite_false,
          List.length_cons]
        first
          | exact le_trans (by omega) (Nat.succ_le_succ (Nat.zero_le _))
          | exact Nat.one_le_iff_ne_zero.mpr
              (fun hz => natChars_ne_nil n.toNat (List.length_eq_zero.mp hz))
  | .str s => by simp [fuelV, sChars]
  | .arr [] => by simp [fuelV, sChars]
  | .arr (x :: xs) => by
    have h := fuelE_le_len x xs
    simp only [fuelV, sChars, List.length_cons, List.length_append, List.length_cons,
      List.length_nil]
    omega
  | .obj [] => by simp [fuelV, sChars]
  | .obj (p :: ps) => by
    have h := fuelF_le_len p ps
    simp only [fuelV, sChars, List.length_cons, List.length_append, List.length_cons,
      List.length_nil]
    omega
termination_by v => sizeOf v
decreasing_by all_goals (simp_wf <;> omega)

theorem fuelE_le_len : ∀ (x : JsVal) (xs : List JsVal),
    fuelE x xs ≤ (elemsChars x xs).length + 1
  | x, [] => by
    have h := fuelV_le_len x
    simp only [fuelE, elemsChars]
    omega
  | x, y :: ys => by
    have h1 := fuelV_le_len x
    have h2 := fuelE_le_len y ys
    simp only [fuelE, elemsChars, List.length_append, List.length_cons]
    omega
termination_by x xs => 1 + sizeOf x + sizeOf xs
decreasing_by all_goals (simp_wf <;> omega)

theorem fuelF_le_len : ∀ (p : String × JsVal) (ps : List (String × JsVal)),
    fuelF p ps ≤ (fieldsChars p ps).length + 1
  | (k, v), [] => by
    have h := fuelV_le_len v
    simp only [fuelF, fieldsChars, List.length_append, List.length_cons]
    omega
  | (k, v), q :: qs => by
    have h1 := fuelV_le_len v
    have h2 := fuelF_le_len q qs
    simp only [fuelF, fieldsChars, List.length_append, List.length_cons]
    omega
termination_by p ps => 1 + sizeOf p + sizeOf ps
decreasing_by all_goals (simp_wf <;> omega)

end

/-- Round trip of the serialization model: parsing a stringified value
recovers it exactly. -/
theorem jsonParse_jsonStringify (v : JsVal) : jsonParse (jsonStringify v) = some v := by
  have h := parseVal_sChars v ((sChars v).length + 1) []
    (le_trans (fuelV_le_len v) (by omega)) noDigitHead_nil
  rw [List.append_nil] at h
  unfold jsonParse jsonStringify
  rw [show (String.mk (sChars v)).data = sChars v from rfl, h]

/-! ## MD5 (`crypto.createHash('md5') ... digest('hex')`) -/

/-- UTF-8 bytes of one character (Node hashes string input as UTF-8). -/
def charUtf8 (c : Char) : List Nat :=
  let n := c.toNat
  if n < 0x80 then [n]
  else if n < 0x800 then [0xC0 + n / 0x40, 0x80 + n % 0x40]
  else if n < 0x10000 then
    [0xE0 + n / 0x1000, 0x80 + n / 0x40 % 0x40, 0x80 + n % 0x40]
  else
    [0xF0 + n / 0x40000, 0x80 + n / 0x1000 % 0x40, 0x80 + n / 0x40 % 0x40, 0x80 + n % 0x40]

/-- UTF-8 bytes of a string. -/
def strBytes (s : String) : List Nat := (s.data.map charUtf8).flatten

/-- The 64 MD5 sine-derived constants (RFC 1321). -/
def md5K : List Nat :=
  [0xd76aa478, 0xe8c7b756, 0x242070db, 0xc1bdceee,
   0xf57c0faf, 0x4787c62a, 0xa8304613, 0xfd469501,
   0x698098d8, 0x8b44f7af, 0xffff5bb1, 0x895cd7be,
   0x6b901122, 0xfd987193, 0xa679438e, 0x49b40821,
   0xf61e2562, 0xc040b340, 0x265e5a51, 0xe9b6c7aa,
   0xd62f105d, 0x02441453, 0xd8a1e681, 0xe7d3fbc8,
   0x21e1cde6, 0xc33707d6, 0xf4d50d87, 0x455a14ed,
   0xa9e3e905, 0xfcefa3f8, 0x676f02d9, 0x8d2a4c8a,
   0xfffa3942, 0x8771f681, 0x6d9d6122, 0xfde5380c,
   0xa4beea44, 0x4bdecfa9, 0xf6bb4b60, 0xbebfbc70,
   0x289b7ec6, 0xeaa127fa, 0xd4ef3085, 0x04881d05,
   0xd9d4d039, 0xe6db99e5, 0x1fa27cf8, 0xc4ac5665,
   0xf4292244, 0x432aff97, 0xab9423a7, 0xfc93a039,
   0x655b59c3, 0x8f0ccc92, 0xffeff47d, 0x85845dd1,
   0x6fa87e4f, 0xfe2ce6e0, 0xa3014314, 0x4e0811a1,
   0xf7537e82, 0xbd3af235, 0x2ad7d2bb, 0xeb86d391]

/-- The 64 MD5 per-round left-rotation amounts. -/
def md5S : List Nat :=
  [7, 12, 17, 22, 7, 12, 17, 22, 7, 12, 17, 22, 7, 12, 17, 22,
   5, 9, 14, 20, 5, 9, 14, 20, 5, 9, 14, 20, 5, 9, 14, 20,
   4, 11, 16, 23, 4, 11, 16, 23, 4, 11, 16, 23, 4, 11, 16, 23,
   6, 10, 15, 21, 6, 10, 15, 21, 6, 10, 15, 21, 6, 10, 15, 21]

/-- 32-bit left rotation on `Nat` (arguments reduced mod `2^32`). -/
def rotl32 (x n : Nat) : Nat :=
  (((x % 4294967296) <<< n) ||| ((x % 4294967296) >>> (32 - n))) % 4294967296

/-- 32-bit bitwise complement. -/
def not32 (x : Nat) : Nat := 4294967295 ^^^ (x % 4294967296)

/-- Little-endian byte rendering of `v` on `count` bytes. -/
def leBytes (count v : Nat) : List Nat :=
  (List.range count).map (fun i => v / 256 ^ i % 256)

/-- Little-endian 32-bit word from four bytes. -/
def bytesToWord (bs : List Nat) : Nat :=
  bs.foldr (fun b acc => b + 256 * acc) 0

/-- One MD5 round (index `i` from 0 to 63) on the state `(a, b, c, d)`. -/
def md5Round (M : Nat → Nat) (st : Nat × Nat × Nat × Nat) (i : Nat) :
    Nat × Nat × Nat × Nat :=
  let a := st.1
  let b := st.2.1
  let c := st.2.2.1
  let d := st.2.2.2
  let fg : Nat × Nat :=
    if i < 16 then ((b &&& c) ||| (not32 b &&& d), i)
    else if i < 32 then ((d &&& b) ||| (not32 d &&& c), (5 * i + 1) % 16)
    else if i < 48 then (b ^^^ c ^^^ d, (3 * i + 5) % 16)
    else (c ^^^ (b ||| not32 d), (7 * i) % 16)
  let f := (fg.1 + a + md5K.getD i 0 + M fg.2) % 4294967296
  (d, (b + rotl32 f (md5S.getD i 0)) % 4294967296, b, c)

/-- MD5 compression of one 64-byte chunk into the running state. -/
def md5Chunk (st : Nat × Nat × Nat × Nat) (chunk : List Nat) : Nat × Nat × Nat × Nat :=
  let M := fun j => bytesToWord ((chunk.drop (4 * j)).take 4)
  let r := (List.range 64).foldl (md5Round M) st
  ((st.1 + r.1) % 4294967296, (st.2.1 + r.2.1) % 4294967296,
   (st.2.2.1 + r.2.2.1) % 4294967296, (st.2.2.2 + r.2.2.2) % 4294967296)

/-- Split a byte string into 64-byte chunks (the padded MD5 message length
is always a positive multiple of 64). -/
def toChunks (l : List Nat) : List (List Nat) :=
  (List.range ((l.length + 63) / 64)).map (fun i => (l.drop (64 * i)).take 64)

/-- The 16 digest bytes of the MD5 of a byte message (RFC 1321: pad with
`0x80`, zeros, and the 64-bit little-endian bit length; compress each chunk;
serialize the final state little-endian). -/
def md5Bytes (msg : List Nat) : List Nat :=
  let L := msg.length
  let padded := msg ++ 0x80 :: (List.replicate ((119 - L % 64) % 64) 0
    ++ leBytes 8 ((8 * L) % 18446744073709551616))
  let st := (toChunks padded).foldl md5Chunk
    (0x67452301, 0xefcdab89, 0x98badcfe, 0x10325476)
  leBytes 4 st.1 ++ leBytes 4 st.2.1 ++ leBytes 4 st.2.2.1 ++ leBytes 4 st.2.2.2

/-- Lower-case hexadecimal digit character. -/
def hexDigit (n : Nat) : Char := if n < 10 then Char.ofNat (48 + n) else Char.ofNat (87 + n)

/-- Two-character hexadecimal rendering of a byte. -/
def byteHex (b : Nat) : List Char := [hexDigit (b / 16 % 16), hexDigit (b % 16)]

/-- The model of `mb5` from `async-base-cache.ts`:
`crypto.createHash('md5').update(data).digest('hex')`. -/
def mb5 (data : String) : String :=
  String.mk (((md5Bytes (strBytes data)).map byteHex).flatten)

set_option maxRecDepth 10000 in
/-- RFC 1321 test vector: the MD5 model on the empty message. -/
theorem mb5_rfc_empty : mb5 "" = "d41d8cd98f00b204e9800998ecf8427e" := by decide

set_option maxRecDepth 10000 in
/-- RFC 1321 test vector: the MD5 model on `"abc"`. -/
theorem mb5_rfc_abc : mb5 "abc" = "900150983cd24fb0d6963f7d28e17f72" := by decide

/-- Lower-case hexadecimal digit test. -/
def isHexChar (c : Char) : Bool :=
  (48 ≤ c.toNat && c.toNat ≤ 57) || (97 ≤ c.toNat && c.toNat ≤ 102)

theorem isHexChar_hexDigit (n : Nat) (h : n < 16) : isHexChar (hexDigit n) = true := by
  interval_cases n <;> decide

theorem md5Bytes_length (msg : List Nat) : (md5Bytes msg).length = 16 := by
  simp [md5Bytes, leBytes]

theorem byteHex_flatten_length (l : List Nat) : ((l.map byteHex).flatten).length = 2 * l.length := by
  induction l with
  | nil => simp
  | cons b bs ih => simp [byteHex, ih]; omega

theorem mb5_length (s : String) : (mb5 s).length = 32 := by
  show (((md5Bytes (strBytes s)).map byteHex).flatten).length = 32
  rw [byteHex_flatten_length, md5Bytes_length]

theorem mb5_hex (s : String) : ∀ c ∈ (mb5 s).data, isHexChar c = true := by
  intro c hc
  have hc' : c ∈ ((md5Bytes (strBytes s)).map byteHex).flatten := hc
  rw [List.mem_flatten] at hc'
  obtain ⟨l, hl, hcl⟩ := hc'
  rw [List.mem_map] at hl
  obtain ⟨b, _, rfl⟩ := hl
  simp only [byteHex, List.mem_cons, List.not_mem_nil, or_false] at hcl
  rcases hcl with rfl | rfl
  · exact isHexChar_hexDigit _ (Nat.mod_lt _ (by norm_num))
  · exact isHexChar_hexDigit _ (Nat.mod_lt _ (by norm_num))

/-! ## JS string coercion -/

mutual

/-- JS `String(v)`, the implicit coercion applied to object property keys and
to the argument of `JSON.parse` (arrays join their elements with commas with
`null` rendering empty, plain objects render as `"[object Object]"`). -/
def jsToString : JsVal → String
  | .null => "null"
  | .bool true => "true"
  | .bool false => "false"
  | .num n => String.mk (intChars n)
  | .str s => s
  | .arr [] => ""
  | .arr (x :: xs) => arrJoin x xs
  | .obj _ => "[object Object]"
termination_by v => sizeOf v
decreasing_by all_goals (simp_wf <;> omega)

/-- Comma join of array elements under `String(·)`. -/
def arrJoin : JsVal → List JsVal → String
  | .null, [] => ""
  | x, [] => jsToString x
  | .null, y :: ys => "," ++ arrJoin y ys
  | x, y :: ys => jsToString x ++ "," ++ arrJoin y ys
termination_by x xs => 1 + sizeOf x + sizeOf xs
decreasing_by all_goals (simp_wf <;> omega)

end

/-! ## JS own-property enumeration order

A `JsObj` stores properties in creation order, but JavaScript enumerates own
string-keyed properties (`Object.keys`, `Object.values`, and lodash's
`_.forEach` / `_.values` over objects) in the ECMAScript
`OrdinaryOwnPropertyKeys` order: keys that are *array indices* — canonical
decimal forms of an integer below `2^32 - 1` — come first in ascending
numeric order, and the remaining keys follow in creation order. -/

/-- The array index denoted by `s`, when `s` is the canonical decimal form of
an integer `n < 2^32 - 1` (no sign, no leading zero); `none` otherwise. -/
def arrayIndex? (s : String) : Option Nat :=
  if s.data ≠ [] ∧ (∀ c ∈ s.data, isDigitChar c = true)
      ∧ (s.data.head? = some '0' → s.data = ['0'])
      ∧ digitsToNat s.data < 4294967295
  then some (digitsToNat s.data) else none

/-- Insertion into a list of entries sorted by ascending array index (in use
the keys are array indices and pairwise distinct). -/
def insertIdx {α : Type} (p : String × α) : List (String × α) → List (String × α)
  | [] => [p]
  | q :: rest =>
    if (arrayIndex? p.1).getD 0 ≤ (arrayIndex? q.1).getD 0 then p :: q :: rest
    else q :: insertIdx p rest

/-- Insertion sort of entries by ascending array index. -/
def sortIdx {α : Type} : List (String × α) → List (String × α)
  | [] => []
  | p :: rest => insertIdx p (sortIdx rest)

/-- The entries of a JS object in own-property enumeration order: array-index
keys first in ascending numeric order, then the remaining keys in creation
order. -/
def jsEntries {α : Type} (m : JsObj α) : List (String × α) :=
  sortIdx (m.filter (fun p => (arrayIndex? p.1).isSome))
    ++ m.filter (fun p => !(arrayIndex? p.1).isSome)

theorem insertIdx_perm {α : Type} (p : String × α) (l : List (String × α)) :
    List.Perm (insertIdx p l) (p :: l) := by
  induction l with
  | nil => exact List.Perm.refl _
  | cons q rest ih =>
    rw [insertIdx]
    by_cases h : (arrayIndex? p.1).getD 0 ≤ (arrayIndex? q.1).getD 0
    · rw [if_pos h]
    · rw [if_neg h]
      exact ((ih.cons q).trans (List.Perm.swap p q rest))

theorem sortIdx_perm {α : Type} (l : List (String × α)) :
    List.Perm (sortIdx l) l := by
  induction l with
  | nil => exact List.Perm.refl _
  | cons p rest ih =>
    rw [sortIdx]
    exact (insertIdx_perm p (sortIdx rest)).trans (ih.cons p)

/-- Enumeration reorders but neither adds nor drops entries. -/
theorem jsEntries_perm {α : Type} (m : JsObj α) : List.Perm (jsEntries m) m := by
  unfold jsEntries
  exact ((sortIdx_perm _).append (List.Perm.refl _)).trans
    (List.filter_append_perm _ m)

theorem jsEntries_nodup_keys {α : Type} (m : JsObj α)
    (h : (m.map Prod.fst).Nodup) : ((jsEntries m).map Prod.fst).Nodup :=
  (List.Perm.nodup_iff (List.Perm.map Prod.fst (jsEntries_perm m))).mpr h

/-! ## The cache abstraction layer (`AsyncBaseCache`, src/async-base-cache.ts)

The primitive value crossing the backend boundary is a JS `string | boolean`;
we keep the full `JsVal` as the dynamic type, with the boolean `false`
reserved as the absence sentinel, exactly as the source declares.
Asynchronous methods whose awaits are sequential are modelled in direct
style; the write primitives thread an explicit backend state. -/

/-- The backend primitive contract: the abstract methods of `AsyncBaseCache`
(lines 230-271), with explicit state threading for the mutating primitives
(`getValue` is a pure read). -/
structure Backend (σ : Type) where
  getValue : σ → String → JsVal
  setValue : σ → String → JsVal → Nat → Bool × σ
  addValue : σ → String → JsVal → Nat → Bool × σ
  deleteValue : σ → String → Bool × σ
  flushValues : σ → Bool × σ

/-- The two configuration fields of `AsyncBaseCache` (lines 18-20). -/
structure CacheConfig where
  keyPrefix : String
  serialization : Bool

namespace AsyncBaseCache

/-- `buildKey` (lines 32-40): a string key of at most 32 characters is
prefixed unchanged; a longer string is MD5-hashed; any other key is
JSON-stringified and MD5-hashed; the result is always prefixed. -/
def buildKey (cfg : CacheConfig) (key : JsVal) : String :=
  match key with
  | .str s => cfg.keyPrefix ++ (if s.length ≤ 32 then s else mb5 s)
  | k => cfg.keyPrefix ++ mb5 (jsonStringify k)

/-- `JSON.parse` applied to an arbitrary JS value: the argument is coerced to
a string first, as happens in `get` / `multiGet` when the raw primitive
result is passed to `JSON.parse`. -/
def jsonParseAny (v : JsVal) : Option JsVal := jsonParse (jsToString v)

/-- `get` (lines 50-60): build the storage key, read the primitive; if the
result is the sentinel `false` or serialization is off, return it directly;
otherwise decode it.  `none` models a thrown decode error. -/
def get {σ : Type} (cfg : CacheConfig) (B : Backend σ) (st : σ) (key : JsVal) :
    Option JsVal :=
  let k := buildKey cfg key
  let value := B.getValue st k
  if value = .bool false ∨ cfg.serialization = false then some value
  else jsonParseAny value

/-- `exists` (lines 104-109): presence is `value !== false` on the raw
primitive result, with no decoding. -/
def existsOp {σ : Type} (cfg : CacheConfig) (B : Backend σ) (st : σ) (key : JsVal) :
    Bool :=
  let value := B.getValue st (buildKey cfg key)
  if value = .bool false then false else true

/-- The default `getValues` (lines 282-290): one `getValue` per key, each
result assigned into the result object under the storage key, unconditionally. -/
def getValues {σ : Type} (B : Backend σ) (st : σ) (keys : List String) : JsObj JsVal :=
  keys.foldl (fun results k => jsSet results k (B.getValue st k)) []

/-- The `_.forEach(keyMap, (newKey, key) => ...)` loop of `multiGet`
(lines 79-89): set the entry to the sentinel, then overwrite it with the raw
or decoded batch value when the storage key is present (not `undefined`) in
the batch result.  `none` models a thrown decode error. -/
def mgLoop (cfg : CacheConfig) (values : JsObj JsVal) :
    List (String × String) → JsObj JsVal → Option (JsObj JsVal)
  | [], results => some results
  | (key, newKey) :: rest, results =>
    let r1 := jsSet results key (.bool false)
    match jsGet values newKey with
    | none => mgLoop cfg values rest r1
    | some w =>
      if cfg.serialization = false then mgLoop cfg values rest (jsSet r1 key w)
      else
        match jsonParseAny w with
        | some v => mgLoop cfg values rest (jsSet r1 key v)
        | none => none

/-- The `keyMap` object of `multiGet` (lines 70-74): property assignment
coerces each original key to a string. -/
def keyMapOf (cfg : CacheConfig) (keys : List JsVal) : JsObj String :=
  keys.foldl (fun m k => jsSet m (jsToString k) (buildKey cfg k)) []

/-- `multiGet` (lines 69-92), parameterised by the batch-read primitive
(`getValues` may be overridden by backends).  Both `_.values(keyMap)` and
`_.forEach(keyMap, ...)` walk the object in own-property enumeration order
(`jsEntries`).  The `results` object is returned as built; since its
properties are created in that same enumeration order, re-enumerating it is
the identity, so this is also the order a caller observes. -/
def multiGet (cfg : CacheConfig) (gvFn : List String → JsObj JsVal)
    (keys : List JsVal) : Option (JsObj JsVal) :=
  let entries := jsEntries (keyMapOf cfg keys)
  let values := gvFn (entries.map Prod.snd)
  mgLoop cfg values entries []

/-- `set` (lines 122-130): build the key, encode the value when serialization
is on, delegate to the single-value write primitive. -/
def set {σ : Type} (cfg : CacheConfig) (B : Backend σ) (st : σ) (key value : JsVal)
    (duration : Nat) : Bool × σ :=
  let k := buildKey cfg key
  let v := if cfg.serialization = true then JsVal.str (jsonStringify value) else value
  B.setValue st k v duration

/-- `add` (lines 166-174): as `set` but through the write-if-absent primitive. -/
def add {σ : Type} (cfg : CacheConfig) (B : Backend σ) (st : σ) (key value : JsVal)
    (duration : Nat) : Bool × σ :=
  let k := buildKey cfg key
  let v := if cfg.serialization = true then JsVal.str (jsonStringify value) else value
  B.addValue st k v duration

/-- `delete` (lines 206-210). -/
def delete {σ : Type} (cfg : CacheConfig) (B : Backend σ) (st : σ) (key : JsVal) :
    Bool × σ :=
  B.deleteValue st (buildKey cfg key)

/-- `flush` (lines 218-220). -/
def flush {σ : Type} (B : Backend σ) (st : σ) : Bool × σ :=
  B.flushValues st

/-- The `data` object built by `multiSet` / `multiAdd` (lines 141-151,
184-194): per-item encoding under serialization, keys normalized through
`buildKey` (item keys are object property names, hence strings). -/
def multiSetData (cfg : CacheConfig) (items : List (String × JsVal)) : JsObj JsVal :=
  items.foldl
    (fun data kv =>
      jsSet data (buildKey cfg (.str kv.1))
        (if cfg.serialization = true then JsVal.str (jsonStringify kv.2) else kv.2))
    []

end AsyncBaseCache

/-! ## Microtask model of the default batch writers

`setValues` / `addValues` (lines 301-311, 322-332) run

  `_.forEach(data, async (value, key) => { if (await this.setValue(key, value,
  duration) === false) { failedKeys.push(key); } });  return failedKeys;`

`_.forEach` invokes the `async` callback but does not await the promise it
returns: every callback suspends at its `await`, the loop finishes, and
`return failedKeys` executes before any callback has resumed.  Whether the
caller that awaits the returned promise observes the pushes is therefore a
race against the backend's resolution latency.  We model it with an explicit
task list: each callback contributes a `resume` task that becomes runnable
`lat` ticks after dispatch (the latency of the backend's write promise), and
the awaiting caller's continuation (`observe`) becomes runnable at tick 1.
`lat = 0` models a backend whose promise is already resolved when awaited
(the resume continuations were enqueued during the synchronous loop, before
the caller's continuation); any `lat ≥ 2` models a backend with real
asynchronous latency, which resolves only after the caller has already
observed the returned array. -/

/-- A pending microtask of the default batch-writer model. -/
inductive WTask where
  | resume (key : String) (value : JsVal)
  | observe

/-- The mutable state of one `setValues` / `addValues` run: the backend
state, the `failedKeys` array, and the value the awaiting caller observed. -/
structure WLoop (σ : Type) where
  store : σ
  failedKeys : List String
  observed : Option (List String)

/-- Run one microtask: a resumed callback performs its write and pushes the
key on failure; the observing caller snapshots `failedKeys`. -/
def wStep {σ : Type} (writeValue : σ → String → JsVal → Nat → Bool × σ) (duration : Nat)
    (st : WLoop σ) : WTask → WLoop σ
  | .resume k v =>
    let r := writeValue st.store k v duration
    { store := r.2,
      failedKeys := if r.1 then st.failedKeys else st.failedKeys ++ [k],
      observed := st.observed }
  | .observe => { st with observed := some st.failedKeys }

/-- The event-loop run of a default batch writer over `data` with backend
write latency `lat`: `_.forEach(data, ...)` dispatches one callback per
entry in own-property enumeration order; tasks execute in ready-time order,
FIFO within a tick. -/
def writeValuesRun {σ : Type} (writeValue : σ → String → JsVal → Nat → Bool × σ)
    (data : JsObj JsVal) (duration lat : Nat) (s0 : σ) : WLoop σ :=
  let tasks : List (Nat × WTask) :=
    (jsEntries data).map (fun kv => (lat, WTask.resume kv.1 kv.2)) ++ [(1, WTask.observe)]
  let ordered := ((List.range (lat + 2)).map
    (fun t => (tasks.filter (fun p => p.1 = t)).map Prod.snd)).flatten
  ordered.foldl (wStep writeValue duration) ⟨s0, [], none⟩

/-- The failed-keys list that `setValues` / `addValues` are documented to
return (`@return array of failed keys`): every per-key outcome of the
enumeration-order iteration collected. -/
def collectFailedKeys {σ : Type} (writeValue : σ → String → JsVal → Nat → Bool × σ)
    (data : JsObj JsVal) (duration : Nat) (s0 : σ) : List String × σ :=
  (jsEntries data).foldl
    (fun acc kv =>
      let r := writeValue acc.2 kv.1 kv.2 duration
      (if r.1 then acc.1 else acc.1 ++ [kv.1], r.2))
    ([], s0)

namespace AsyncBaseCache

/-- `multiSet` (lines 141-154): build the encoded `data` object, then run the
default `setValues` under the microtask model. -/
def multiSet {σ : Type} (cfg : CacheConfig) (B : Backend σ) (st : σ)
    (items : List (String × JsVal)) (duration lat : Nat) : WLoop σ :=
  writeValuesRun B.setValue (multiSetData cfg items) duration lat st

/-- `multiAdd` (lines 184-197): as `multiSet` through `addValue`. -/
def multiAdd {σ : Type} (cfg : CacheConfig) (B : Backend σ) (st : σ)
    (items : List (String × JsVal)) (duration lat : Nat) : WLoop σ :=
  writeValuesRun B.addValue (multiSetData cfg items) duration lat st

end AsyncBaseCache

/-- The canonical compliant backend: an in-memory map from storage keys to
stored values; absence is reported as the reserved sentinel `false`, `add`
fails on a present key, durations are owned by the backend and ignored here
(TTL mechanics are out of scope of the layer under verification). -/
def mapBackend : Backend (JsObj JsVal) where
  getValue st k := (jsGet st k).getD (.bool false)
  setValue st k v _ := (true, jsSet st k v)
  addValue st k v _ := if (jsGet st k).isSome then (false, st) else (true, jsSet st k v)
  deleteValue st k := (true, jsRemove st k)
  flushValues _ := (true, [])

/-- A full cache instance over the map backend: the two configuration fields
plus the backing store. -/
structure CacheState where
  keyPrefix : String
  serialization : Bool
  store : JsObj JsVal

/-- The configuration of a cache instance. -/
def cfgOf (s : CacheState) : CacheConfig := ⟨s.keyPrefix, s.serialization⟩

namespace AsyncBaseCache

/-- `buildKey` as a state transition on a cache instance. -/
def buildKeyS (s : CacheState) (key : JsVal) : String × CacheState :=
  (buildKey (cfgOf s) key, s)

/-- `get` as a state transition on a cache instance. -/
def getS (s : CacheState) (key : JsVal) : Option JsVal × CacheState :=
  (get (cfgOf s) mapBackend s.store key, s)

/-- `multiGet` (with the default `getValues`) as a state transition. -/
def multiGetS (s : CacheState) (keys : List JsVal) : Option (JsObj JsVal) × CacheState :=
  (multiGet (cfgOf s) (getValues mapBackend s.store) keys, s)

/-- `exists` as a state transition. -/
def existsS (s : CacheState) (key : JsVal) : Bool × CacheState :=
  (existsOp (cfgOf s) mapBackend s.store key, s)

/-- `set` as a state transition. -/
def setS (s : CacheState) (key value : JsVal) (duration : Nat) : Bool × CacheState :=
  let r := set (cfgOf s) mapBackend s.store key value duration
  (r.1, { s with store := r.2 })

/-- `add` as a state transition. -/
def addS (s : CacheState) (key value : JsVal) (duration : Nat) : Bool × CacheState :=
  let r := add (cfgOf s) mapBackend s.store key value duration
  (r.1, { s with store := r.2 })

/-- `delete` as a state transition. -/
def deleteS (s : CacheState) (key : JsVal) : Bool × CacheState :=
  let r := delete (cfgOf s) mapBackend s.store key
  (r.1, { s with store := r.2 })

/-- `flush` as a state transition. -/
def flushS (s : CacheState) : Bool × CacheState :=
  let r := flush mapBackend s.store
  (r.1, { s with store := r.2 })

/-- `multiSet` as a state transition (result is the observed failed-keys
array). -/
def multiSetS (s : CacheState) (items : List (String × JsVal)) (duration lat : Nat) :
    Option (List String) × CacheState :=
  let r := multiSet (cfgOf s) mapBackend s.store items duration lat
  (r.observed, { s with store := r.store })

/-- `multiAdd` as a state transition. -/
def multiAddS (s : CacheState) (items : List (String × JsVal)) (duration lat : Nat) :
    Option (List String) × CacheState :=
  let r := multiAdd (cfgOf s) mapBackend s.store items duration lat
  (r.observed, { s with store := r.store })

end AsyncBaseCache

/-! ## Claims -/

/-- C4: For every string Cache Key of length at most 32 characters, `buildKey`
returns the configured keyPrefix concatenated with the key itself, unchanged
and unhashed. -/
theorem C4_buildKey_short_string (cfg : CacheConfig) (s : String) (h : s.length ≤ 32) :
    AsyncBaseCache.buildKey cfg (.str s) = cfg.keyPrefix ++ s := by
  simp [AsyncBaseCache.buildKey, h]

/-- Witness for C4 at the spec's example key. -/
theorem C4_buildKey_short_string_witness :
    "user:42".length ≤ 32
    ∧ AsyncBaseCache.buildKey ⟨"p", true⟩ (.str "user:42")
        = (⟨"p", true⟩ : CacheConfig).keyPrefix ++ "user:42" :=
  ⟨by decide, C4_buildKey_short_string ⟨"p", true⟩ "user:42" (by decide)⟩

/-- A Cache Key that takes the hashing path of `buildKey`: a string longer
than 32 characters, or any non-string value. -/
def hashedKey : JsVal → Bool
  | .str s => decide (32 < s.length)
  | _ => true

/-- The canonical text form `buildKey` hashes: the string itself for string
keys, the JSON serialization for any other key. -/
def canonicalText : JsVal → String
  | .str s => s
  | k => jsonStringify k

/-- C5: `buildKey` is deterministic; for every string longer than 32
characters or any non-string Cache Key the result is the keyPrefix followed
by the 32-hexadecimal-character 128-bit MD5 digest of the key's canonical
text form, so keys with equal canonical text yield equal Storage Keys. -/
theorem C5_buildKey_hashed (cfg : CacheConfig) (k : JsVal) (h : hashedKey k = true) :
    AsyncBaseCache.buildKey cfg k = cfg.keyPrefix ++ mb5 (canonicalText k)
    ∧ (mb5 (canonicalText k)).length = 32
    ∧ (∀ c ∈ (mb5 (canonicalText k)).data, isHexChar c = true)
    ∧ (∀ k2, hashedKey k2 = true → canonicalText k2 = canonicalText k →
        AsyncBaseCache.buildKey cfg k2 = AsyncBaseCache.buildKey cfg k) := by
  have main : ∀ k', hashedKey k' = true →
      AsyncBaseCache.buildKey cfg k' = cfg.keyPrefix ++ mb5 (canonicalText k') := by
    intro k' h'
    cases k' with
    | str s =>
      have hlen : ¬ s.length ≤ 32 := by
        simp only [hashedKey, decide_eq_true_eq] at h'
        omega
      simp [AsyncBaseCache.buildKey, canonicalText, hlen]
    | null => rfl
    | bool b => rfl
    | num n => rfl
    | arr l => rfl
    | obj l => rfl
  refine ⟨main k h, mb5_length _, mb5_hex _, ?_⟩
  intro k2 h2 he
  rw [main k2 h2, main k h, he]

/-- Witness for C5 at the non-string key `5`. -/
theorem C5_buildKey_hashed_witness :
    hashedKey (JsVal.num 5) = true
    ∧ (AsyncBaseCache.buildKey ⟨"p", true⟩ (JsVal.num 5)
          = (⟨"p", true⟩ : CacheConfig).keyPrefix ++ mb5 (canonicalText (JsVal.num 5))
        ∧ (mb5 (canonicalText (JsVal.num 5))).length = 32
        ∧ (∀ c ∈ (mb5 (canonicalText (JsVal.num 5))).data, isHexChar c = true)
        ∧ (∀ k2, hashedKey k2 = true
            → canonicalText k2 = canonicalText (JsVal.num 5)
            → AsyncBaseCache.buildKey ⟨"p", true⟩ k2
                = AsyncBaseCache.buildKey ⟨"p", true⟩ (JsVal.num 5))) :=
  ⟨rfl, C5_buildKey_hashed ⟨"p", true⟩ (JsVal.num 5) rfl⟩

theorem get_of_getValue_false {σ : Type} (cfg : CacheConfig) (B : Backend σ) (st : σ)
    (key : JsVal) (h : B.getValue st (AsyncBaseCache.buildKey cfg key) = .bool false) :
    AsyncBaseCache.get cfg B st key = some (.bool false) := by
  unfold AsyncBaseCache.get
  simp [h]

/-- C6: when the single-value read primitive returns the absence sentinel,
`get` returns the sentinel directly, with no decoding, regardless of the
serialization flag. -/
theorem C6_get_absent_sentinel (σ : Type) (cfg : CacheConfig) (B : Backend σ) (st : σ)
    (key : JsVal) (h : B.getValue st (AsyncBaseCache.buildKey cfg key) = .bool false) :
    AsyncBaseCache.get cfg B st key = some (.bool false) :=
  get_of_getValue_false cfg B st key h

/-- Witness for C6 on the empty map backend. -/
theorem C6_get_absent_sentinel_witness :
    mapBackend.getValue [] (AsyncBaseCache.buildKey ⟨"", true⟩ (.str "missing"))
        = .bool false
    ∧ AsyncBaseCache.get ⟨"", true⟩ mapBackend [] (.str "missing")
        = some (.bool false) :=
  ⟨rfl, C6_get_absent_sentinel (JsObj JsVal) ⟨"", true⟩ mapBackend [] (.str "missing") rfl⟩

theorem jsonParseAny_str (s : String) :
    AsyncBaseCache.jsonParseAny (.str s) = jsonParse s := by
  unfold AsyncBaseCache.jsonParseAny
  rw [show jsToString (.str s) = s from by simp [jsToString]]

/-- Reading back a key just written through `set` with serialization on
decodes the stored serialization of the written value. -/
theorem get_after_set_on (pre : String) (st : JsObj JsVal) (k v : JsVal) (d : Nat) :
    AsyncBaseCache.get ⟨pre, true⟩ mapBackend
      (AsyncBaseCache.set ⟨pre, true⟩ mapBackend st k v d).2 k = some v := by
  unfold AsyncBaseCache.get AsyncBaseCache.set
  simp only [mapBackend, jsGet_jsSet, if_pos rfl, if_true, ite_true, Option.getD_some]
  rw [if_neg (by simp)]
  rw [jsonParseAny_str, jsonParse_jsonStringify]

/-- Reading back a string written through `set` with serialization off
returns it unchanged. -/
theorem get_after_set_off (pre : String) (st : JsObj JsVal) (k : JsVal) (s : String)
    (d : Nat) :
    AsyncBaseCache.get ⟨pre, false⟩ mapBackend
      (AsyncBaseCache.set ⟨pre, false⟩ mapBackend st k (.str s) d).2 k
      = some (.str s) := by
  unfold AsyncBaseCache.get AsyncBaseCache.set
  simp [mapBackend, jsGet_jsSet]

/-- C7 counterexample: with serialization on, `set(k, false)` succeeds, yet
`get(k)` afterwards returns the absence sentinel `false` itself, so the
sentinel is not distinguishable from the explicitly stored value `false`. -/
theorem C7_counterexample :
    (AsyncBaseCache.set ⟨"", true⟩ mapBackend [] (.str "k") (.bool false) 0).1 = true
    ∧ AsyncBaseCache.get ⟨"", true⟩ mapBackend
        (AsyncBaseCache.set ⟨"", true⟩ mapBackend [] (.str "k") (.bool false) 0).2
        (.str "k") = some (.bool false) :=
  ⟨rfl, get_after_set_on "" [] (.str "k") (.bool false) 0⟩

/-- C7 (amended): the absence sentinel is distinguishable from the
explicitly stored falsy values `0` and `""` (serialization on), and `get` of
a missing key returns the sentinel; distinguishability fails only for the
stored value `false` (see the counterexample). -/
theorem C7_sentinel_vs_falsy (pre : String) (st : JsObj JsVal) (k : JsVal) (d : Nat) :
    (AsyncBaseCache.set ⟨pre, true⟩ mapBackend st k (.num 0) d).1 = true
    ∧ AsyncBaseCache.get ⟨pre, true⟩ mapBackend
        (AsyncBaseCache.set ⟨pre, true⟩ mapBackend st k (.num 0) d).2 k = some (.num 0)
    ∧ AsyncBaseCache.get ⟨pre, true⟩ mapBackend
        (AsyncBaseCache.set ⟨pre, true⟩ mapBackend st k (.str "") d).2 k = some (.str "")
    ∧ (JsVal.num 0 ≠ JsVal.bool false ∧ JsVal.str "" ≠ JsVal.bool false)
    ∧ AsyncBaseCache.get ⟨pre, true⟩ mapBackend [] k = some (.bool false) :=
  ⟨rfl, get_after_set_on pre st k (.num 0) d, get_after_set_on pre st k (.str "") d,
    ⟨by decide, by decide⟩,
    get_of_getValue_false ⟨pre, true⟩ mapBackend [] k rfl⟩

/-- C8: round trip through a compliant backend: with serialization on, a
successful `set(k, v)` followed by `get(k)` returns a value structurally
equal to `v`; with serialization off, a stored string comes back unchanged. -/
theorem C8_set_get_roundtrip :
    (∀ (pre : String) (st : JsObj JsVal) (k v : JsVal) (d : Nat),
      (AsyncBaseCache.set ⟨pre, true⟩ mapBackend st k v d).1 = true
      ∧ AsyncBaseCache.get ⟨pre, true⟩ mapBackend
          (AsyncBaseCache.set ⟨pre, true⟩ mapBackend st k v d).2 k = some v)
    ∧ (∀ (pre : String) (st : JsObj JsVal) (k : JsVal) (s : String) (d : Nat),
      (AsyncBaseCache.set ⟨pre, false⟩ mapBackend st k (.str s) d).1 = true
      ∧ AsyncBaseCache.get ⟨pre, false⟩ mapBackend
          (AsyncBaseCache.set ⟨pre, false⟩ mapBackend st k (.str s) d).2 k
          = some (.str s)) :=
  ⟨fun pre st k v d => ⟨rfl, get_after_set_on pre st k v d⟩,
   fun pre st k s d => ⟨rfl, get_after_set_off pre st k s d⟩⟩

/-- C10: with serialization on, after `set(k, false)` the backend holds the
text `"false"`, so `exists(k)` is `true` (the raw result is not the
sentinel) while `get(k)` decodes the text to the sentinel `false`: the two
operations disagree about presence. -/
theorem C10_exists_get_disagree :
    AsyncBaseCache.existsOp ⟨"", true⟩ mapBackend
        (AsyncBaseCache.set ⟨"", true⟩ mapBackend [] (.str "k") (.bool false) 0).2
        (.str "k") = true
    ∧ AsyncBaseCache.get ⟨"", true⟩ mapBackend
        (AsyncBaseCache.set ⟨"", true⟩ mapBackend [] (.str "k") (.bool false) 0).2
        (.str "k") = some (.bool false) := by
  refine ⟨?_, get_after_set_on "" [] (.str "k") (.bool false) 0⟩
  unfold AsyncBaseCache.existsOp AsyncBaseCache.set
  simp [mapBackend, jsGet_jsSet]

/-- C9: every public operation leaves the two configuration fields
`keyPrefix` and `serialization` of the cache instance unchanged. -/
theorem C9_config_immutable (s : CacheState) (k v : JsVal) (keys : List JsVal)
    (items : List (String × JsVal)) (d lat : Nat) :
    ((AsyncBaseCache.buildKeyS s k).2.keyPrefix = s.keyPrefix
      ∧ (AsyncBaseCache.buildKeyS s k).2.serialization = s.serialization)
    ∧ ((AsyncBaseCache.getS s k).2.keyPrefix = s.keyPrefix
      ∧ (AsyncBaseCache.getS s k).2.serialization = s.serialization)
    ∧ ((AsyncBaseCache.multiGetS s keys).2.keyPrefix = s.keyPrefix
      ∧ (AsyncBaseCache.multiGetS s keys).2.serialization = s.serialization)
    ∧ ((AsyncBaseCache.existsS s k).2.keyPrefix = s.keyPrefix
      ∧ (AsyncBaseCache.existsS s k).2.serialization = s.serialization)
    ∧ ((AsyncBaseCache.setS s k v d).2.keyPrefix = s.keyPrefix
      ∧ (AsyncBaseCache.setS s k v d).2.serialization = s.serialization)
    ∧ ((AsyncBaseCache.multiSetS s items d lat).2.keyPrefix = s.keyPrefix
      ∧ (AsyncBaseCache.multiSetS s items d lat).2.serialization = s.serialization)
    ∧ ((AsyncBaseCache.addS s k v d).2.keyPrefix = s.keyPrefix
      ∧ (AsyncBaseCache.addS s k v d).2.serialization = s.serialization)
    ∧ ((AsyncBaseCache.multiAddS s items d lat).2.keyPrefix = s.keyPrefix
      ∧ (AsyncBaseCache.multiAddS s items d lat).2.serialization = s.serialization)
    ∧ ((AsyncBaseCache.deleteS s k).2.keyPrefix = s.keyPrefix
      ∧ (AsyncBaseCache.deleteS s k).2.serialization = s.serialization)
    ∧ ((AsyncBaseCache.flushS s).2.keyPrefix = s.keyPrefix
      ∧ (AsyncBaseCache.flushS s).2.serialization = s.serialization) :=
  ⟨⟨rfl, rfl⟩, ⟨rfl, rfl⟩, ⟨rfl, rfl⟩, ⟨rfl, rfl⟩, ⟨rfl, rfl⟩, ⟨rfl, rfl⟩, ⟨rfl, rfl⟩,
    ⟨rfl, rfl⟩, ⟨rfl, rfl⟩, ⟨rfl, rfl⟩⟩

/-- C2 counterexample: with an empty backend, the default `getValues` on the
single key `"k"` produces a mapping that still contains `"k"`, bound to the
absence sentinel `false`, instead of omitting it as the claim states. -/
theorem C2_counterexample :
    jsGet (AsyncBaseCache.getValues mapBackend [] ["k"]) "k" = some (.bool false)
    ∧ jsGet (AsyncBaseCache.getValues mapBackend [] ["k"]) "k" ≠ none := by
  decide

/-- C2 (amended): the default `getValues` returns a mapping containing every
requested key, each bound to the raw result of its `getValue` call — absent
keys are bound to the sentinel `false` rather than omitted. -/
theorem C2_getValues_includes_all (σ : Type) (B : Backend σ) (st : σ)
    (keys : List String) (k : String) :
    jsGet (AsyncBaseCache.getValues B st keys) k =
      if k ∈ keys then some (B.getValue st k) else none := by
  unfold AsyncBaseCache.getValues
  suffices h : ∀ acc : JsObj JsVal,
      jsGet (keys.foldl (fun results k' => jsSet results k' (B.getValue st k')) acc) k
        = if k ∈ keys then some (B.getValue st k) else jsGet acc k by
    simpa [jsGet] using h []
  induction keys with
  | nil => intro acc; simp
  | cons k0 ks ih =>
    intro acc
    simp only [List.foldl_cons, ih, List.mem_cons]
    by_cases hk : k ∈ ks
    · simp [hk]
    · by_cases h0 : k = k0
      · simp [hk, h0, jsGet_jsSet]
      · simp [hk, h0, jsGet_jsSet]

/-- A backend whose writes always report failure (a permitted backend-level
write failure), with immediate trivial state. -/
def failBackend : Backend Unit where
  getValue _ _ := .bool false
  setValue _ _ _ _ := (false, ())
  addValue _ _ _ _ := (false, ())
  deleteValue _ _ := (false, ())
  flushValues _ := (false, ())

/-- C1 (code bug): `multiSet` over the default `setValues` resolves with the
`failedKeys` array as of the moment `setValues` returned.  With a backend of
real asynchronous latency (`lat = 2`) the caller observes the empty list even
though the single write failed — the per-key outcomes, which the
documentation promises to collect, are still pending (`collectFailedKeys`
shows the intended value).  With an immediately-resolved backend (`lat = 0`)
the pushes happen to win the race, showing the result is
scheduling-dependent. -/
theorem C1_multiSet_loses_failures :
    (AsyncBaseCache.multiSet ⟨"", false⟩ failBackend () [("k", .num 1)] 0 2).observed
        = some []
    ∧ (collectFailedKeys failBackend.setValue
          (AsyncBaseCache.multiSetData ⟨"", false⟩ [("k", .num 1)]) 0 ()).1 = ["k"]
    ∧ (AsyncBaseCache.multiSet ⟨"", false⟩ failBackend () [("k", .num 1)] 0 0).observed
        = some ["k"]
    ∧ (AsyncBaseCache.multiAdd ⟨"", false⟩ failBackend () [("k", .num 1)] 0 2).observed
        = some []
    ∧ (collectFailedKeys failBackend.addValue
          (AsyncBaseCache.multiSetData ⟨"", false⟩ [("k", .num 1)]) 0 ()).1 = ["k"] := by
  decide

namespace AsyncBaseCache

/-- One result entry of the corrected `multiGet` description, for a storage
key `sk`: the absence sentinel when `sk` is absent from the batch result, and
otherwise the raw (serialization off) or decoded (serialization on) value. -/
def mgEntry (cfg : CacheConfig) (values : JsObj JsVal) (sk : String) : Option JsVal :=
  match jsGet values sk with
  | none => some (.bool false)
  | some w => if cfg.serialization = false then some w else jsonParseAny w

/-- Spec-style statement of the corrected `multiGet` result, to be compared
with the implementation: one entry per distinct coerced input Cache Key, in
JS own-property enumeration order (array-index-like coerced keys first in
ascending numeric order, then the rest in insertion order), each keyed by
the coerced key and carrying the entry value of the storage key that the
last input key with that coercion produced. -/
def multiGetSpec (cfg : CacheConfig) (gvFn : List String → JsObj JsVal)
    (keys : List JsVal) : Option (JsObj JsVal) :=
  let entries := jsEntries (keyMapOf cfg keys)
  let values := gvFn (entries.map Prod.snd)
  entries.mapM (fun e => (mgEntry cfg values e.2).map (fun v => (e.1, v)))

end AsyncBaseCache

theorem foldl_jsSet_nodup {α β : Type} (f1 : β → String) (f2 : β → α) :
    ∀ (l : List β) (acc : JsObj α), (acc.map Prod.fst).Nodup →
      ((l.foldl (fun m k => jsSet m (f1 k) (f2 k)) acc).map Prod.fst).Nodup := by
  intro l
  induction l with
  | nil => intro acc h; exact h
  | cons b bs ih => intro acc h; exact ih _ (jsSet_nodup_keys _ _ _ h)

theorem keyMapOf_nodup (cfg : CacheConfig) (keys : List JsVal) :
    ((AsyncBaseCache.keyMapOf cfg keys).map Prod.fst).Nodup := by
  unfold AsyncBaseCache.keyMapOf
  exact foldl_jsSet_nodup jsToString (AsyncBaseCache.buildKey cfg) keys [] (by simp)

theorem mgLoop_eq_mapM (cfg : CacheConfig) (values : JsObj JsVal) :
    ∀ (entries : List (String × String)) (results : JsObj JsVal),
      (results.map Prod.fst ++ entries.map Prod.fst).Nodup →
      AsyncBaseCache.mgLoop cfg values entries results
        = (entries.mapM (fun e => (AsyncBaseCache.mgEntry cfg values e.2).map
            (fun v => (e.1, v)))).map (fun l => results ++ l) := by
  intro entries
  induction entries with
  | nil =>
    intro results h
    rw [List.mapM_nil]
    simp [AsyncBaseCache.mgLoop]
  | cons e rest ih =>
    intro results h
    obtain ⟨key, newKey⟩ := e
    have hA : key ∉ results.map Prod.fst := by
      intro hk
      exact (List.disjoint_of_nodup_append h) hk (List.mem_cons_self _ _)
    have hnext : ∀ w : JsVal,
        ((results ++ [(key, w)]).map Prod.fst ++ rest.map Prod.fst).Nodup := by
      intro w
      simpa [List.append_assoc] using h
    have hset : jsSet results key (.bool false) = results ++ [(key, .bool false)] :=
      jsSet_of_not_mem _ _ _ hA
    simp only [AsyncBaseCache.mgLoop, hset]
    cases hv : jsGet values newKey with
    | none =>
      simp only []
      rw [ih _ (hnext (.bool false))]
      simp only [List.mapM_cons]
      rw [show (AsyncBaseCache.mgEntry cfg values newKey).map (fun v => (key, v))
          = some (key, .bool false) from by simp [AsyncBaseCache.mgEntry, hv]]
      cases hm : rest.mapM (fun e => (AsyncBaseCache.mgEntry cfg values e.2).map
          (fun v => (e.1, v))) with
      | none => simp [hm]
      | some l => simp [hm]
    | some w =>
      simp only []
      by_cases hs : cfg.serialization = false
      · rw [if_pos hs, jsSet_append_last _ _ _ _ hA, ih _ (hnext w)]
        simp only [List.mapM_cons]
        rw [show (AsyncBaseCache.mgEntry cfg values newKey).map (fun v => (key, v))
            = some (key, w) from by simp [AsyncBaseCache.mgEntry, hv, hs]]
        cases hm : rest.mapM (fun e => (AsyncBaseCache.mgEntry cfg values e.2).map
            (fun v => (e.1, v))) with
        | none => simp [hm]
        | some l => simp [hm]
      · rw [if_neg hs]
        cases hp : AsyncBaseCache.jsonParseAny w with
        | none =>
          simp only [List.mapM_cons]
          rw [show (AsyncBaseCache.mgEntry cfg values newKey).map (fun v => (key, v))
              = none from by simp [AsyncBaseCache.mgEntry, hv, hs, hp]]
          simp
        | some v =>
          simp only []
          rw [jsSet_append_last _ _ _ _ hA, ih _ (hnext v)]
          simp only [List.mapM_cons]
          rw [show (AsyncBaseCache.mgEntry cfg values newKey).map (fun u => (key, u))
              = some (key, v) from by simp [AsyncBaseCache.mgEntry, hv, hs, hp]]
          cases hm : rest.mapM (fun e => (AsyncBaseCache.mgEntry cfg values e.2).map
              (fun u => (e.1, u))) with
          | none => simp [hm]
          | some l => simp [hm]

/-- C3 (amended): `multiGet` computes exactly the corrected spec-side
description `multiGetSpec`: the result mapping is keyed by the string
coercion of the original Cache Keys with exactly one entry per distinct
coerced key (distinct Cache Keys whose coercions agree collapse, see the
counterexample), each entry derived from the batch result of the storage key
built from the last input key with that coercion: the absence sentinel when
the storage key is absent from the batch result, the raw value when
serialization is off, and the decoded value otherwise. -/
theorem C3_multiGet_eq_spec (cfg : CacheConfig) (gvFn : List String → JsObj JsVal)
    (keys : List JsVal) :
    AsyncBaseCache.multiGet cfg gvFn keys = AsyncBaseCache.multiGetSpec cfg gvFn keys := by
  unfold AsyncBaseCache.multiGet AsyncBaseCache.multiGetSpec
  rw [mgLoop_eq_mapM cfg _ (jsEntries (AsyncBaseCache.keyMapOf cfg keys)) []
    (by simpa using jsEntries_nodup_keys _ (keyMapOf_nodup cfg keys))]
  cases hm : (jsEntries (AsyncBaseCache.keyMapOf cfg keys)).mapM
      (fun e => (AsyncBaseCache.mgEntry cfg
        (gvFn ((jsEntries (AsyncBaseCache.keyMapOf cfg keys)).map Prod.snd)) e.2).map
          (fun v => (e.1, v))) with
  | none => simp [hm]
  | some l => simp [hm]

/-- C3 counterexample: the two distinct Cache Keys `5` (a number) and `"5"`
(a string) coerce to the same object property string, so `multiGet` on them
returns a single-entry mapping rather than one entry per distinct input
Cache Key; moreover on `["b", 5]` the result's entries come out in JS
enumeration order `"5", "b"`, not in input order, because array-index-like
property keys are hoisted. -/
theorem C3_counterexample :
    AsyncBaseCache.multiGet ⟨"", true⟩ (fun _ => []) [JsVal.num 5, JsVal.str "5"]
      = some [("5", JsVal.bool false)]
    ∧ JsVal.num 5 ≠ JsVal.str "5"
    ∧ AsyncBaseCache.multiGet ⟨"", true⟩ (fun _ => []) [JsVal.str "b", JsVal.num 5]
      = some [("5", JsVal.bool false), ("b", JsVal.bool false)] := by
  have h5 : jsToString (JsVal.num 5) = "5" := by
    rw [jsToString.eq_def]
    decide
  have h5s : jsToString (JsVal.str "5") = "5" := by
    rw [jsToString.eq_def]
  have hbs : jsToString (JsVal.str "b") = "b" := by
    rw [jsToString.eq_def]
  refine ⟨?_, by decide, ?_⟩
  · unfold AsyncBaseCache.multiGet AsyncBaseCache.keyMapOf
    simp only [List.foldl_cons, List.foldl_nil, h5, h5s]
    decide
  · unfold AsyncBaseCache.multiGet AsyncBaseCache.keyMapOf
    simp only [List.foldl_cons, List.foldl_nil, h5, hbs]
    decide
